import Mathlib

/-!
Verification of the resource-miner program (src/main.rs).

The program is embedded shallowly:
* bytes are `Nat` values < 256, byte buffers are `List Nat`;
* `u32` / `usize` arithmetic stays in `Nat`, with explicit bounds where the
  Rust types guarantee them (`U32MAX = 2^32 - 1`, usize overflow at `2^64`);
* the random `Block::new()` supply is modelled by a fresh-identifier counter
  carried in `BlockManager` (`nextId`): a freshly generated block receives the
  next identifier, so distinct generation events yield distinct blocks;
* fallible pieces (usize parsing, file writes) return `Option` / `Except`.
-/

/-! ## Data model of the matcher (src/main.rs lines 10-84) -/

/-- The rarity classes, in the source's declaration order (enum ResourceKind). -/
inductive ResourceKind where
  | COAL
  | IRON
  | GOLD
  | DIAMOND
deriving DecidableEq

/-- struct Resource: a 32-byte comparison target plus its kind. -/
structure Resource where
  target : List Nat
  kind : ResourceKind
deriving DecidableEq

/-- Big-endian value of a byte buffer: models the `U256::try_from(&[u8])`
read in Resource::new, which interprets the slice as a big-endian unsigned
integer. -/
def beVal (l : List Nat) : Nat := l.foldl (fun acc b => acc * 256 + b) 0

/-- The 32-byte big-endian encoding of a 256-bit value: models
`U256::to_big_endian` into a `[0u8; 32]` buffer. -/
def natToBe32 (n : Nat) : List Nat := (List.range 32).map fun i => n / 256 ^ (31 - i) % 256

/-- Resource::new: the hex string is decoded to bytes (callers below pass the
decoded bytes), the buffer is reversed, read as a big-endian `U256`, and
re-encoded as the 32-byte big-endian `target`. -/
def Resource.new (kind : ResourceKind) (bytes : List Nat) : Resource :=
  { target := natToBe32 (beVal bytes.reverse), kind := kind }

/-- Resource::new(DIAMOND, "000000000fff"): the hex string decodes to these
six bytes. -/
def diamondR : Resource := Resource.new ResourceKind.DIAMOND [0x00, 0x00, 0x00, 0x00, 0x0f, 0xff]

/-- Resource::new(GOLD, "00000002ffff"). -/
def goldR : Resource := Resource.new ResourceKind.GOLD [0x00, 0x00, 0x00, 0x02, 0xff, 0xff]

/-- Resource::new(IRON, "0000000fffff"). -/
def ironR : Resource := Resource.new ResourceKind.IRON [0x00, 0x00, 0x00, 0x0f, 0xff, 0xff]

/-- Resource::new(COAL, "0000003fffff"). -/
def coalR : Resource := Resource.new ResourceKind.COAL [0x00, 0x00, 0x00, 0x3f, 0xff, 0xff]

/-- struct ResourceMatcher. -/
structure ResourceMatcher where
  resources : List Resource
deriving DecidableEq

/-- ResourceMatcher::new pushes the four resources rarest-first. -/
def ResourceMatcher.new : ResourceMatcher := ⟨[diamondR, goldR, ironR, coalR]⟩

/-- The byte-pair scan shared by the inner loop of match_hash: the pairs are
listed in the order the loop visits them; `true` models `return Some(..)`
(first strictly smaller hash byte, or every pair equal), `false` models the
`brk = true; break` exit (first strictly larger hash byte). -/
def scanPairs : List (Nat × Nat) → Bool
  | [] => true
  | (h, t) :: rest => if h < t then true else if t < h then false else scanPairs rest

/-- One resource's test inside match_hash: `for i in (0..hash.len()).rev()`
compares `hash[i]` with `resource.target[i]` starting from the HIGHEST index,
hence the reversal of the zipped byte pairs. -/
def matchOne (hash target : List Nat) : Bool := scanPairs ((hash.zip target).reverse)

/-- The outer loop of ResourceMatcher::match_hash over the resource list. -/
def matchList : List Resource → List Nat → Option Resource
  | [], _ => none
  | r :: rest, hash => if matchOne hash r.target then some r else matchList rest hash

/-- ResourceMatcher::match_hash. -/
def ResourceMatcher.match_hash (self : ResourceMatcher) (hash : List Nat) : Option Resource :=
  matchList self.resources hash

/-- Little-endian value of a byte buffer: byte 0 is least significant.  The
scan order of `matchOne` makes this, not `beVal`, the order the matcher
actually compares digests by. -/
def leVal : List Nat → Nat
  | [] => 0
  | b :: rest => b + 256 * leVal rest

/-- Modelled from the spec (section 4.2 wording): compare digest and threshold
as big-endian unsigned integers, scanning bytes from the most-significant
byte (index 0 of the big-endian buffer) to the least-significant; the first
differing byte decides; all bytes equal counts as satisfied; the first
(rarest) satisfied class is returned. -/
def specClassifyBE : List Resource → List Nat → Option Resource
  | [], _ => none
  | r :: rest, hash => if scanPairs (hash.zip r.target) then some r else specClassifyBE rest hash

/-! ## BlockManager (src/main.rs lines 10, 93-157) -/

/-- const CHUNK_SIZE: u32 = 50000. -/
def CHUNK_SIZE : Nat := 50000

/-- u32::MAX, the top of the nonce space. -/
def U32MAX : Nat := 4294967295

/-- struct Block { created_at, seed }: immutable once created, identity given
by its randomly drawn field values, modelled by a fresh identifier. -/
structure Block where
  id : Nat
deriving DecidableEq

/-- Block::new(): creation of a fresh random block, modelled by drawing the
next identifier from the manager's supply. -/
def Block.new (idSupply : Nat) : Block := ⟨idSupply⟩

/-- struct BlockManager: blocks.1 is the active (Block, nonce offset) pair
(`blocks[0]` in the source), blocks.2 the pre-generated spare (`blocks[1]`);
`mined` counts exhausted blocks.  `nextId` is the model's supply of fresh
block identifiers (it stands for the randomness consumed by Block::new). -/
structure BlockManager where
  blocks : (Block × Nat) × (Block × Nat)
  mined : Nat
  nextId : Nat
deriving DecidableEq

/-- The rotation branch of get_block:
`self.blocks = [self.blocks[1].clone(), (Block::new(), 0)]; self.mined += 1`. -/
def rotate (m : BlockManager) : BlockManager :=
  { blocks := (m.blocks.2, (Block.new m.nextId, 0)), mined := m.mined + 1,
    nextId := m.nextId + 1 }

/-- The allocation branch of get_block: `left` is `u32::MAX - start` clamped
to CHUNK_SIZE, `end = start + left`, the stored offset advances by `left`
(`self.blocks[0].1 += left`), and the cloned active block is returned with
start and end. -/
def serve (m : BlockManager) : Block × Nat × Nat × BlockManager :=
  (m.blocks.1.1, m.blocks.1.2,
    m.blocks.1.2 + min CHUNK_SIZE (U32MAX - m.blocks.1.2),
    { m with blocks :=
      ((m.blocks.1.1, m.blocks.1.2 + min CHUNK_SIZE (U32MAX - m.blocks.1.2)), m.blocks.2) })

/-- BlockManager::get_block exactly as written: if the active offset sits at
u32::MAX, rotate and retry (`return self.get_block()`); the fuel argument
bounds the recursion depth, `none` meaning the bound was hit. -/
def get_blockF : Nat → BlockManager → Option (Block × Nat × Nat × BlockManager)
  | 0, _ => none
  | fuel + 1, m =>
    if m.blocks.1.2 = U32MAX then get_blockF fuel (rotate m) else some (serve m)

/-- BlockManager::get_block, total form: a rotation installs a spare at
offset 0, so the source's recursion unfolds at most twice; get_blockF_three
below proves the two definitions agree on every state. -/
def get_block (m : BlockManager) : Block × Nat × Nat × BlockManager :=
  if m.blocks.1.2 = U32MAX then
    if (rotate m).blocks.1.2 = U32MAX then serve (rotate (rotate m)) else serve (rotate m)
  else serve m

/-- BlockManager::new(): two fresh blocks, both at offset 0. -/
def BlockManager.new : BlockManager :=
  { blocks := ((Block.new 0, 0), (Block.new 1, 0)), mined := 0, nextId := 2 }

/-- One serialized allocation call: every worker's
`bm.lock().unwrap().get_block()` holds the single mutex for the whole call,
so a program run is a sequence of these steps. -/
def stepBM (m m2 : BlockManager) : Prop := m2 = (get_block m).2.2.2

/-- Manager states reachable from the freshly constructed manager. -/
def ReachableBM (m : BlockManager) : Prop := Relation.ReflTransGen stepBM BlockManager.new m

/-- The manager state after k allocation calls. -/
def bmRun : Nat → BlockManager → BlockManager
  | 0, m => m
  | k + 1, m => (get_block (bmRun k m)).2.2.2

/-- The (start, end) pair handed out by the (k+1)-st allocation call. -/
def chunkAt (k : Nat) (m : BlockManager) : Nat × Nat :=
  ((get_block (bmRun k m)).2.1, (get_block (bmRun k m)).2.2.1)

/-- The block snapshot handed out by the (k+1)-st allocation call. -/
def headerAt (k : Nat) (m : BlockManager) : Block := (get_block (bmRun k m)).1

/-- The number of chunks one full generation hands out:
85899 full chunks of 50000 nonces plus a final shorter one. -/
def NCHUNKS : Nat := 85900

/-- The active nonce offset after k chunks of one generation. -/
def genOffset (k : Nat) : Nat := min (k * CHUNK_SIZE) U32MAX

/-- The nonces the worker loop hashes for a chunk [s, e]: `n` starts at `s`,
each iteration hashes `n` and stops after `n == end`, else increments; every
issued chunk has s ≤ e, under which the loop visits exactly s..e
inclusive. -/
def workerNonces (s e : Nat) : List Nat := (List.range (e + 1 - s)).map fun i => s + i

/-- Invariant of every reachable manager state: the spare offset is never
advanced, the active offset stays in u32 range, block identifiers are below
the supply counter, and active and spare blocks are distinct. -/
def BMInv (m : BlockManager) : Prop :=
  m.blocks.2.2 = 0 ∧ m.blocks.1.2 ≤ U32MAX ∧ m.blocks.1.1.id < m.nextId ∧
    m.blocks.2.1.id < m.nextId ∧ m.blocks.1.1 ≠ m.blocks.2.1

/-! ## The threads option (src/main.rs lines 159-191) -/

/-- ASCII decimal digit test ('0' is 48, '9' is 57). -/
def isAsciiDigit (c : Char) : Bool := 48 ≤ c.toNat && c.toNat ≤ 57

/-- Value of a decimal digit string. -/
def digitsToNat (l : List Char) : Nat := l.foldl (fun a c => a * 10 + (c.toNat - 48)) 0

/-- The optional leading '+' sign accepted by usize::from_str. -/
def stripPlusChar (s : List Char) : List Char :=
  match s with
  | [] => []
  | c :: rest => if c = '+' then rest else c :: rest

/-- Rust `str::parse::<usize>` (usize::from_str): an optional leading '+',
then one or more ASCII digits, with a value below 2^64 (usize is 64-bit);
anything else is Err. -/
def parseUsize (s : List Char) : Option Nat :=
  if !(stripPlusChar s).isEmpty && (stripPlusChar s).all isAsciiDigit then
    if digitsToNat (stripPlusChar s) < 2 ^ 64 then some (digitsToNat (stripPlusChar s)) else none
  else none

/-- main's thread-count selection: `args.get("threads")` followed by
`threads.parse::<usize>().unwrap()`, defaulting to
`num_cpus::get_physical()` when the option is absent.  `none` models the
unwrap panic: startup fails before any worker thread is spawned. -/
def threadsOf (threadsArg : Option (List Char)) (physicalCores : Nat) : Option Nat :=
  match threadsArg with
  | some s => parseUsize s
  | none => some physicalCores

/-- Modelled from the spec: "threads: positive integer" — a string of ASCII
digits denoting a value strictly greater than zero. -/
def isPositiveIntChars (s : List Char) : Bool :=
  !s.isEmpty && s.all isAsciiDigit && decide (0 < digitsToNat s)

/-- The exact grammar usize parsing accepts, stated declaratively for the
amended claim: optionally '+'-signed, one or more ASCII digits, value below
2^64. -/
def validUsizeChars (s : List Char) : Prop :=
  ∃ ds, (s = ds ∨ s = '+' :: ds) ∧ ds ≠ [] ∧ (∀ c ∈ ds, isAsciiDigit c = true) ∧
    digitsToNat ds < 2 ^ 64

/-! ## Aggregator (src/main.rs lines 225-258) -/

/-- A discovery as sent over the channel: the matched resource and the digest
(the source sends its hex encoding; the bytes carry the same information). -/
structure Discovery where
  resource : Resource
  hash : List Nat
deriving DecidableEq

/-- One increment of the aggregator's HashMap<ResourceKind, u128>: get_mut
adds 1 when the key is present, insert stores 1 otherwise; reading an absent
key as count 0 makes both branches an increment. -/
def bump (counts : ResourceKind → Nat) (k : ResourceKind) : ResourceKind → Nat :=
  fun x => if x = k then counts x + 1 else counts x

/-- Aggregator state: the running counts plus the records appended to
mined.txt. -/
structure AggState where
  counts : ResourceKind → Nat
  records : List Discovery

/-- The aggregator's starting state: empty map, freshly truncated file. -/
def aggInit : AggState := { counts := fun _ => 0, records := [] }

/-- The aggregator loop over the discoveries it receives, with a persistence
oracle: `ok i` tells whether the i-th `save_file.write_fmt(..)` succeeds.  On
each received discovery the count is incremented first; on write success the
record is appended and the loop continues; on write failure the `.unwrap()`
panics: the loop halts, surfacing the failing index and the state at the
panic (count already incremented, record not appended).  An exhausted input
list models `rx.recv()` returning Err: the channel closed and the loop
breaks. -/
def aggRun (ok : Nat → Bool) : Nat → AggState → List Discovery → Except (Nat × AggState) AggState
  | _, st, [] => Except.ok st
  | i, st, d :: rest =>
    if ok i then
      aggRun ok (i + 1)
        { counts := bump st.counts d.resource.kind, records := st.records ++ [d] } rest
    else Except.error (i, { counts := bump st.counts d.resource.kind, records := st.records })

/-- Counts after folding the aggregator's increment over a list. -/
def countsAfter (ds : List Discovery) (c : ResourceKind → Nat) : ResourceKind → Nat :=
  ds.foldl (fun acc d => bump acc d.resource.kind) c

/-- Specification-level count: the number of discoveries of class k. -/
def countsOf (ds : List Discovery) (k : ResourceKind) : Nat :=
  (ds.filter fun d => decide (d.resource.kind = k)).length

/-! ## Concrete inputs used by counterexamples and witnesses -/

/-- Digest separating the spec's big-endian scan from the code's scan. -/
def d2cex : List Nat := 1 :: List.replicate 31 0

/-- Digest whose big-endian value (256^29) exceeds every threshold. -/
def d7cex : List Nat := [0, 0, 1] ++ List.replicate 29 0

/-- Digest whose little-endian value (256^31) exceeds every threshold. -/
def d7wit : List Nat := List.replicate 31 0 ++ [1]

/-- The all-zero digest. -/
def hashZero : List Nat := List.replicate 32 0

/-- A manager state with the active offset at u32::MAX and a fresh spare. -/
def mC3 : BlockManager :=
  { blocks := ((Block.new 0, U32MAX), (Block.new 1, 0)), mined := 5, nextId := 2 }

/-- A manager state with the active offset at u32::MAX - 17295. -/
def mC4 : BlockManager :=
  { blocks := ((Block.new 0, 4294950000), (Block.new 1, 0)), mined := 3, nextId := 2 }

/-- A persistence oracle that fails from the second write on. -/
def ok9 : Nat → Bool := fun j => decide (j = 0)

/-- Two discoveries fed to the aggregator. -/
def ds9 : List Discovery := [⟨coalR, [1]⟩, ⟨ironR, [2]⟩]

/-! ## Lemmas about the matcher -/

lemma beVal_foldl_shift (l : List Nat) (acc : Nat) :
    l.foldl (fun a b => a * 256 + b) acc = acc * 256 ^ l.length + l.foldl (fun a b => a * 256 + b) 0 := by
  induction l generalizing acc with
  | nil => simp
  | cons a l ih =>
    simp only [List.foldl_cons, List.length_cons]
    rw [ih (acc * 256 + a), ih ((0 : Nat) * 256 + a)]
    ring

lemma beVal_cons (a : Nat) (l : List Nat) : beVal (a :: l) = a * 256 ^ l.length + beVal l := by
  show List.foldl _ _ _ = _
  simp only [List.foldl_cons]
  rw [beVal_foldl_shift]
  show (0 * 256 + a) * 256 ^ l.length + _ = _
  ring_nf
  rfl

lemma beVal_lt (l : List Nat) (h : ∀ b ∈ l, b < 256) : beVal l < 256 ^ l.length := by
  induction l with
  | nil => simp [beVal]
  | cons a l ih =>
    rw [beVal_cons]
    have ha : a < 256 := h a (by simp)
    have hl := ih (fun b hb => h b (List.mem_cons_of_mem _ hb))
    calc a * 256 ^ l.length + beVal l < a * 256 ^ l.length + 256 ^ l.length := by omega
      _ = (a + 1) * 256 ^ l.length := by ring
      _ ≤ 256 * 256 ^ l.length := Nat.mul_le_mul_right _ (by omega)
      _ = 256 ^ (a :: l).length := by rw [List.length_cons, pow_succ]; ring

lemma scanPairs_zip (as : List Nat) : ∀ bs : List Nat, as.length = bs.length →
    (∀ b ∈ as, b < 256) → (∀ b ∈ bs, b < 256) →
    scanPairs (as.zip bs) = decide (beVal as ≤ beVal bs) := by
  induction as with
  | nil =>
    intro bs hlen _ _
    cases bs with
    | nil => simp [scanPairs, beVal]
    | cons b bs => simp at hlen
  | cons a as ih =>
    intro bs hlen ha hb
    cases bs with
    | nil => simp at hlen
    | cons b bs =>
      simp only [List.length_cons, Nat.succ_inj'] at hlen
      have ha' : ∀ x ∈ as, x < 256 := fun x hx => ha x (List.mem_cons_of_mem _ hx)
      have hb' : ∀ x ∈ bs, x < 256 := fun x hx => hb x (List.mem_cons_of_mem _ hx)
      have hA : beVal as < 256 ^ as.length := beVal_lt as ha'
      have hB : beVal bs < 256 ^ bs.length := beVal_lt bs hb'
      rw [hlen] at hA
      simp only [List.zip_cons_cons, scanPairs]
      rw [beVal_cons, beVal_cons, hlen]
      by_cases h1 : a < b
      · rw [if_pos h1]
        have hlt : a * 256 ^ bs.length + beVal as < b * 256 ^ bs.length + beVal bs := by
          calc a * 256 ^ bs.length + beVal as < a * 256 ^ bs.length + 256 ^ bs.length := by omega
            _ = (a + 1) * 256 ^ bs.length := by ring
            _ ≤ b * 256 ^ bs.length := Nat.mul_le_mul_right _ (by omega)
            _ ≤ b * 256 ^ bs.length + beVal bs := Nat.le_add_right _ _
        exact (decide_eq_true (Nat.le_of_lt hlt)).symm
      · rw [if_neg h1]
        by_cases h2 : b < a
        · rw [if_pos h2]
          have hlt : b * 256 ^ bs.length + beVal bs < a * 256 ^ bs.length + beVal as := by
            calc b * 256 ^ bs.length + beVal bs < b * 256 ^ bs.length + 256 ^ bs.length := by omega
              _ = (b + 1) * 256 ^ bs.length := by ring
              _ ≤ a * 256 ^ bs.length := Nat.mul_le_mul_right _ (by omega)
              _ ≤ a * 256 ^ bs.length + beVal as := Nat.le_add_right _ _
          exact (decide_eq_false (Nat.not_le.mpr hlt)).symm
        · have hab : a = b := Nat.le_antisymm (Nat.not_lt.mp h2) (Nat.not_lt.mp h1)
          subst hab
          rw [if_neg h2]
          rw [decide_eq_decide.mpr (add_le_add_iff_left _)]
          exact ih bs hlen ha' hb'

lemma zip_reverse_eq (as : List Nat) : ∀ bs : List Nat, as.length = bs.length →
    (as.zip bs).reverse = as.reverse.zip bs.reverse := by
  induction as with
  | nil => intro bs _; simp
  | cons a as ih =>
    intro bs hlen
    cases bs with
    | nil => simp at hlen
    | cons b bs =>
      simp only [List.length_cons, Nat.succ_inj'] at hlen
      simp only [List.zip_cons_cons, List.reverse_cons]
      rw [ih bs hlen, List.zip_append (by simp [hlen])]
      simp

lemma leVal_eq_beVal_reverse (l : List Nat) : leVal l = beVal l.reverse := by
  induction l with
  | nil => simp [leVal, beVal]
  | cons a l ih =>
    simp only [leVal, List.reverse_cons]
    show _ = List.foldl _ _ _
    rw [List.foldl_append]
    show a + 256 * leVal l = beVal l.reverse * 256 + a
    rw [ih]; ring

lemma matchOne_eq_le (hash target : List Nat) (hlen : hash.length = target.length)
    (h1 : ∀ b ∈ hash, b < 256) (h2 : ∀ b ∈ target, b < 256) :
    matchOne hash target = decide (leVal hash ≤ leVal target) := by
  show scanPairs ((hash.zip target).reverse) = _
  rw [zip_reverse_eq hash target hlen,
    scanPairs_zip hash.reverse target.reverse (by simp [hlen])
      (fun b hb => h1 b (List.mem_reverse.mp hb)) (fun b hb => h2 b (List.mem_reverse.mp hb)),
    leVal_eq_beVal_reverse, leVal_eq_beVal_reverse]

lemma matchList_eq_findSat (hash : List Nat) : ∀ rs : List Resource,
    matchList rs hash = rs.find? fun r => matchOne hash r.target := by
  intro rs
  induction rs with
  | nil => rfl
  | cons r rest ih =>
    show (if matchOne hash r.target then some r else matchList rest hash) = _
    cases h : matchOne hash r.target <;> simp [List.find?_cons, h, ih]

lemma matchList_eq_le (hash : List Nat) (hlen : hash.length = 32) (hh : ∀ b ∈ hash, b < 256) :
    ∀ rs : List Resource, (∀ r ∈ rs, r.target.length = 32 ∧ ∀ b ∈ r.target, b < 256) →
    matchList rs hash = rs.find? fun r => decide (leVal hash ≤ leVal r.target) := by
  intro rs
  induction rs with
  | nil => intro _; rfl
  | cons r rest ih =>
    intro hwf
    obtain ⟨hl, hb⟩ := hwf r (List.mem_cons_self r rest)
    show (if matchOne hash r.target then some r else matchList rest hash) = _
    rw [matchOne_eq_le hash r.target (by rw [hlen, hl]) hh hb]
    cases h : decide (leVal hash ≤ leVal r.target) <;>
      simp [List.find?_cons, h, ih (fun x hx => hwf x (List.mem_cons_of_mem _ hx))]

lemma matchOne_mono (hash t1 t2 : List Nat) (hlen1 : hash.length = t1.length)
    (hlen2 : hash.length = t2.length) (hh : ∀ b ∈ hash, b < 256)
    (h1 : ∀ b ∈ t1, b < 256) (h2 : ∀ b ∈ t2, b < 256)
    (hle : leVal t1 ≤ leVal t2) (hm : matchOne hash t1 = true) : matchOne hash t2 = true := by
  rw [matchOne_eq_le hash t1 hlen1 hh h1] at hm
  rw [matchOne_eq_le hash t2 hlen2 hh h2]
  exact decide_eq_true (le_trans (of_decide_eq_true hm) hle)

/-! ## Lemmas about the BlockManager -/

lemma rotate_rotate_off (m : BlockManager) : (rotate (rotate m)).blocks.1.2 = 0 := rfl

lemma get_blockF_three (m : BlockManager) : get_blockF 3 m = some (get_block m) := by
  unfold get_blockF get_block
  by_cases h1 : m.blocks.1.2 = U32MAX
  · rw [if_pos h1, if_pos h1]
    unfold get_blockF
    by_cases h2 : (rotate m).blocks.1.2 = U32MAX
    · rw [if_pos h2, if_pos h2]
      unfold get_blockF
      rw [if_neg (by rw [rotate_rotate_off]; decide)]
    · rw [if_neg h2, if_neg h2]
  · rw [if_neg h1, if_neg h1]

lemma get_blockF_two (m : BlockManager) (h0 : m.blocks.2.2 = 0) :
    get_blockF 2 m = some (get_block m) := by
  have hro : (rotate m).blocks.1.2 = 0 := h0
  have h2 : ¬ (rotate m).blocks.1.2 = U32MAX := by rw [hro]; decide
  unfold get_blockF get_block
  by_cases h1 : m.blocks.1.2 = U32MAX
  · rw [if_pos h1, if_pos h1, if_neg h2]
    unfold get_blockF
    rw [if_neg h2]
  · rw [if_neg h1, if_neg h1]

lemma BMInv_new : BMInv BlockManager.new := by
  unfold BMInv BlockManager.new Block.new
  decide

lemma BMInv_step (m : BlockManager) (h : BMInv m) : BMInv (get_block m).2.2.2 := by
  obtain ⟨h0, h1, h2, h3, h4⟩ := h
  by_cases hmax : m.blocks.1.2 = U32MAX
  · have hro : (rotate m).blocks.1.2 = 0 := h0
    rw [get_block, if_pos hmax, if_neg (by rw [hro]; decide)]
    refine ⟨rfl, ?_, ?_, ?_, ?_⟩
    · show (rotate m).blocks.1.2 + min CHUNK_SIZE (U32MAX - (rotate m).blocks.1.2) ≤ U32MAX
      rw [hro]
      decide
    · show m.blocks.2.1.id < m.nextId + 1
      omega
    · show m.nextId < m.nextId + 1
      omega
    · show m.blocks.2.1 ≠ Block.new m.nextId
      intro heq
      have : m.blocks.2.1.id = m.nextId := by rw [heq]; rfl
      omega
  · rw [get_block, if_neg hmax]
    have hlt : m.blocks.1.2 < U32MAX := Nat.lt_of_le_of_ne h1 hmax
    refine ⟨h0, ?_, h2, h3, h4⟩
    show m.blocks.1.2 + min CHUNK_SIZE (U32MAX - m.blocks.1.2) ≤ U32MAX
    unfold CHUNK_SIZE U32MAX at *
    omega

lemma BMInv_reachable (m : BlockManager) (h : ReachableBM m) : BMInv m := by
  induction h with
  | refl => exact BMInv_new
  | tail hab hbc ih =>
    rw [show _ = (get_block _).2.2.2 from hbc]
    exact BMInv_step _ ih

lemma get_block_of_lt (m : BlockManager) (h : m.blocks.1.2 < U32MAX) :
    get_block m = serve m := by
  rw [get_block, if_neg (Nat.ne_of_lt h)]

lemma genOffset_lt (k : Nat) (hk : k < NCHUNKS) : genOffset k < U32MAX := by
  unfold genOffset NCHUNKS CHUNK_SIZE U32MAX at *
  omega

lemma genOffset_step (k : Nat) (hk : k < NCHUNKS) :
    genOffset k + min CHUNK_SIZE (U32MAX - genOffset k) = genOffset (k + 1) := by
  unfold genOffset NCHUNKS CHUNK_SIZE U32MAX at *
  omega

lemma genOffset_mono {j k : Nat} (h : j ≤ k) : genOffset j ≤ genOffset k := by
  unfold genOffset CHUNK_SIZE U32MAX
  omega

lemma bmRun_gen (m : BlockManager) (h0 : m.blocks.1.2 = 0) :
    ∀ k, k ≤ NCHUNKS →
      (bmRun k m).blocks = ((m.blocks.1.1, genOffset k), m.blocks.2) ∧
      (bmRun k m).mined = m.mined ∧ (bmRun k m).nextId = m.nextId := by
  intro k
  induction k with
  | zero =>
    intro _
    have hg : genOffset 0 = 0 := rfl
    refine ⟨?_, rfl, rfl⟩
    show m.blocks = ((m.blocks.1.1, genOffset 0), m.blocks.2)
    rw [hg, ← h0]
  | succ k ih =>
    intro hk
    obtain ⟨hb, hm, hn⟩ := ih (Nat.le_of_succ_le hk)
    have hklt : k < NCHUNKS := Nat.lt_of_succ_le hk
    have hoff : (bmRun k m).blocks.1.2 = genOffset k := by rw [hb]
    have hstep : bmRun (k + 1) m = (serve (bmRun k m)).2.2.2 := by
      show (get_block (bmRun k m)).2.2.2 = _
      rw [get_block_of_lt _ (by rw [hoff]; exact genOffset_lt k hklt)]
    rw [hstep]
    refine ⟨?_, hm, hn⟩
    show (((bmRun k m).blocks.1.1,
        (bmRun k m).blocks.1.2 + min CHUNK_SIZE (U32MAX - (bmRun k m).blocks.1.2)),
      (bmRun k m).blocks.2) = _
    rw [hb]
    show ((m.blocks.1.1, genOffset k + min CHUNK_SIZE (U32MAX - genOffset k)), m.blocks.2) = _
    rw [genOffset_step k hklt]

lemma chunkAt_gen (m : BlockManager) (h0 : m.blocks.1.2 = 0) (k : Nat) (hk : k < NCHUNKS) :
    chunkAt k m = (genOffset k, genOffset (k + 1)) ∧ headerAt k m = m.blocks.1.1 := by
  obtain ⟨hb, _, _⟩ := bmRun_gen m h0 k (Nat.le_of_lt hk)
  have hoff : (bmRun k m).blocks.1.2 = genOffset k := by rw [hb]
  have hdr : (bmRun k m).blocks.1.1 = m.blocks.1.1 := by rw [hb]
  unfold chunkAt headerAt
  rw [get_block_of_lt _ (by rw [hoff]; exact genOffset_lt k hk)]
  unfold serve
  refine ⟨?_, hdr⟩
  show ((bmRun k m).blocks.1.2,
      (bmRun k m).blocks.1.2 + min CHUNK_SIZE (U32MAX - (bmRun k m).blocks.1.2)) = _
  rw [hoff, genOffset_step k hk]

lemma workerNonces_toFinset (s e : Nat) (h : s ≤ e) :
    (workerNonces s e).toFinset = Finset.Icc s e := by
  ext x
  simp only [workerNonces, List.mem_toFinset, List.mem_map, List.mem_range, Finset.mem_Icc]
  constructor
  · rintro ⟨i, hi, rfl⟩
    omega
  · intro hx
    exact ⟨x - s, by omega, by omega⟩

lemma genOffset_cover (x : Nat) (hx : x ≤ U32MAX) :
    ∃ k, k < NCHUNKS ∧ genOffset k ≤ x ∧ x ≤ genOffset (k + 1) := by
  have hx2 : x ≤ 4294967295 := hx
  refine ⟨x / CHUNK_SIZE, ?_, ?_, ?_⟩
  · show x / 50000 < 85900
    omega
  · show min (x / 50000 * 50000) 4294967295 ≤ x
    omega
  · show x ≤ min ((x / 50000 + 1) * 50000) 4294967295
    omega

lemma genOffset_union :
    (Finset.range NCHUNKS).biUnion (fun k => Finset.Icc (genOffset k) (genOffset (k + 1))) =
      Finset.Icc 0 U32MAX := by
  ext x
  simp only [Finset.mem_biUnion, Finset.mem_range, Finset.mem_Icc]
  constructor
  · rintro ⟨k, _, _, h2⟩
    exact ⟨Nat.zero_le x, le_trans h2 (min_le_right _ _)⟩
  · rintro ⟨_, hx⟩
    exact genOffset_cover x hx

lemma chunkIco_disjoint (j k : Nat) (h : j + 1 ≤ k) :
    Disjoint (Finset.Ico (genOffset j) (genOffset (j + 1)))
      (Finset.Ico (genOffset k) (genOffset (k + 1))) := by
  rw [Finset.disjoint_left]
  intro x hx1 hx2
  rw [Finset.mem_Ico] at hx1 hx2
  have := genOffset_mono h
  omega

/-! ## Lemmas about the threads option -/

lemma stripPlusChar_cons (c : Char) (rest : List Char) :
    stripPlusChar (c :: rest) = if c = '+' then rest else c :: rest := rfl

lemma stripPlusChar_of_digit (c : Char) (rest : List Char) (h : isAsciiDigit c = true) :
    stripPlusChar (c :: rest) = c :: rest := by
  rw [stripPlusChar_cons, if_neg]
  intro hc
  rw [hc] at h
  exact absurd h (by decide)

lemma validUsize_iff_core (s : List Char) :
    validUsizeChars s ↔
      (stripPlusChar s ≠ [] ∧ (∀ c ∈ stripPlusChar s, isAsciiDigit c = true) ∧
        digitsToNat (stripPlusChar s) < 2 ^ 64) := by
  constructor
  · rintro ⟨ds, hds, hne, hdig, hlt⟩
    rcases hds with hds | hds
    · subst hds
      cases s with
      | nil => exact absurd rfl hne
      | cons c rest =>
        rw [stripPlusChar_of_digit c rest (hdig c (List.mem_cons_self _ _))]
        exact ⟨hne, hdig, hlt⟩
    · subst hds
      have hstrip : stripPlusChar ('+' :: ds) = ds := by
        rw [stripPlusChar_cons, if_pos rfl]
      rw [hstrip]
      exact ⟨hne, hdig, hlt⟩
  · rintro ⟨hne, hdig, hlt⟩
    cases s with
    | nil => exact absurd rfl hne
    | cons c rest =>
      by_cases hc : c = '+'
      · subst hc
        have hstrip : stripPlusChar ('+' :: rest) = rest := by
          rw [stripPlusChar_cons, if_pos rfl]
        rw [hstrip] at hne hdig hlt
        exact ⟨rest, Or.inr rfl, hne, hdig, hlt⟩
      · have hstrip : stripPlusChar (c :: rest) = c :: rest := by
          rw [stripPlusChar_cons, if_neg hc]
        rw [hstrip] at hne hdig hlt
        exact ⟨c :: rest, Or.inl rfl, hne, hdig, hlt⟩

lemma parseUsize_none_iff (s : List Char) : parseUsize s = none ↔ ¬ validUsizeChars s := by
  rw [validUsize_iff_core]
  unfold parseUsize
  by_cases h1 : (!(stripPlusChar s).isEmpty && (stripPlusChar s).all isAsciiDigit) = true
  · rw [if_pos h1]
    have hne : stripPlusChar s ≠ [] := by
      intro h
      rw [h] at h1
      exact absurd h1 (by decide)
    have hall : ∀ c ∈ stripPlusChar s, isAsciiDigit c = true :=
      List.all_eq_true.mp ((Bool.and_eq_true _ _).mp h1).2
    by_cases h2 : digitsToNat (stripPlusChar s) < 2 ^ 64
    · rw [if_pos h2]
      constructor
      · intro h
        exact absurd h (Option.some_ne_none _)
      · intro hn
        exact absurd ⟨hne, hall, h2⟩ hn
    · rw [if_neg h2]
      constructor
      · rintro - ⟨-, -, hlt⟩
        exact h2 hlt
      · intro _
        rfl
  · rw [if_neg h1]
    constructor
    · rintro - ⟨hne, hall, -⟩
      apply h1
      rw [Bool.and_eq_true]
      refine ⟨?_, List.all_eq_true.mpr hall⟩
      rw [Bool.not_eq_true']
      rw [← Bool.not_eq_true]
      intro hemp
      exact hne (List.isEmpty_iff.mp hemp)
    · intro _
      rfl

lemma parseUsize_zero : parseUsize ['0'] = some 0 := by decide

/-! ## Lemmas about the aggregator -/

lemma countsOf_cons (d : Discovery) (ds : List Discovery) (k : ResourceKind) :
    countsOf (d :: ds) k = (if d.resource.kind = k then 1 else 0) + countsOf ds k := by
  unfold countsOf
  rw [List.filter_cons]
  by_cases h : d.resource.kind = k
  · simp [h]
    omega
  · simp [h]

lemma countsAfter_eq (ds : List Discovery) : ∀ (c : ResourceKind → Nat) (k : ResourceKind),
    countsAfter ds c k = c k + countsOf ds k := by
  induction ds with
  | nil =>
    intro c k
    simp [countsAfter, countsOf]
  | cons d ds ih =>
    intro c k
    show countsAfter ds (bump c d.resource.kind) k = _
    rw [ih, countsOf_cons]
    show (if k = d.resource.kind then c k + 1 else c k) + countsOf ds k = _
    by_cases h : d.resource.kind = k
    · rw [if_pos h.symm, if_pos h]
      omega
    · rw [if_neg (fun hh => h hh.symm), if_neg h]
      omega

lemma aggRun_error_at (ok : Nat → Bool) :
    ∀ (i : Nat) (ds : List Discovery) (base : Nat) (st : AggState),
      i < ds.length → (∀ j, j < i → ok (base + j) = true) → ok (base + i) = false →
      aggRun ok base st ds = Except.error (base + i,
        { counts := countsAfter (ds.take (i + 1)) st.counts,
          records := st.records ++ ds.take i }) := by
  intro i
  induction i with
  | zero =>
    intro ds base st hlen h2 h3
    cases ds with
    | nil => simp at hlen
    | cons d rest =>
      have h3b : ok base = false := h3
      show (if ok base = true then _ else _) = _
      rw [if_neg (by rw [h3b]; exact Bool.false_ne_true)]
      rw [show base + 0 = base from rfl]
      rw [List.take_zero, List.append_nil]
      rfl
  | succ i ih =>
    intro ds base st hlen h2 h3
    cases ds with
    | nil => simp at hlen
    | cons d rest =>
      have h0 : ok base = true := h2 0 (Nat.succ_pos i)
      show (if ok base = true then _ else _) = _
      rw [if_pos h0]
      rw [ih rest (base + 1) _ (by simpa using hlen)
        (fun j hj => by
          have hh := h2 (j + 1) (by omega)
          rwa [show base + (j + 1) = base + 1 + j from by omega] at hh)
        (by rwa [show base + (i + 1) = base + 1 + i from by omega] at h3)]
      rw [show base + 1 + i = base + (i + 1) from by omega]
      rw [List.take_succ_cons, List.take_succ_cons,
        show st.records ++ d :: List.take i rest = st.records ++ [d] ++ List.take i rest from by
          simp]
      rfl

/-! ## Claim C1 — partition of the nonce space -/

/-- Claim C1, counterexample: the claim says the processed nonce sets of
chunks from one generation are pairwise disjoint, but the first two chunks
of a fresh manager are [0, 50000] and [50000, 100000] under the same header,
and the worker hashes both endpoints inclusively, so nonce 50000 is
processed twice. -/
theorem C1_counterexample :
    chunkAt 0 BlockManager.new = (0, 50000) ∧
    chunkAt 1 BlockManager.new = (50000, 100000) ∧
    headerAt 0 BlockManager.new = headerAt 1 BlockManager.new ∧
    (50000 : Nat) ∈ workerNonces (chunkAt 0 BlockManager.new).1 (chunkAt 0 BlockManager.new).2 ∧
    (50000 : Nat) ∈ workerNonces (chunkAt 1 BlockManager.new).1 (chunkAt 1 BlockManager.new).2 ∧
    ¬ Disjoint
      ((workerNonces (chunkAt 0 BlockManager.new).1 (chunkAt 0 BlockManager.new).2).toFinset)
      ((workerNonces (chunkAt 1 BlockManager.new).1 (chunkAt 1 BlockManager.new).2).toFinset) := by
  have h0 : chunkAt 0 BlockManager.new = (0, 50000) := by decide
  have h1 : chunkAt 1 BlockManager.new = (50000, 100000) := by decide
  have hm0 : (50000 : Nat) ∈
      workerNonces (chunkAt 0 BlockManager.new).1 (chunkAt 0 BlockManager.new).2 := by
    rw [h0]
    simp only [workerNonces, List.mem_map, List.mem_range]
    exact ⟨50000, by omega, by omega⟩
  have hm1 : (50000 : Nat) ∈
      workerNonces (chunkAt 1 BlockManager.new).1 (chunkAt 1 BlockManager.new).2 := by
    rw [h1]
    simp only [workerNonces, List.mem_map, List.mem_range]
    exact ⟨0, by omega, by omega⟩
  refine ⟨h0, h1, by decide, hm0, hm1, fun hd => ?_⟩
  exact absurd (List.mem_toFinset.mpr hm1)
    (Finset.disjoint_left.mp hd (List.mem_toFinset.mpr hm0))

/-- Claim C1, amended: for the sequence of get_block calls of one Header
generation (active offset starting at 0), the k-th chunk is
[genOffset k, genOffset (k+1)] under the unchanged active header; each
chunk's end equals the next chunk's start and consecutive processed ranges
overlap in exactly that one boundary nonce; the half-open ranges
[start, end) are pairwise disjoint; the union of the inclusively processed
worker nonce sets is the full nonce space [0, u32::MAX] with no gaps; every
chunk but the last has length CHUNK_SIZE = 50000 and the final chunk has
length 17295. -/
theorem C1_amended (m : BlockManager) (h0 : m.blocks.1.2 = 0) :
    (∀ k, k < NCHUNKS →
      chunkAt k m = (genOffset k, genOffset (k + 1)) ∧ headerAt k m = m.blocks.1.1) ∧
    (∀ k, k + 1 < NCHUNKS → (chunkAt k m).2 = (chunkAt (k + 1) m).1) ∧
    (∀ k, k + 1 < NCHUNKS →
      Finset.Icc (chunkAt k m).1 (chunkAt k m).2 ∩
        Finset.Icc (chunkAt (k + 1) m).1 (chunkAt (k + 1) m).2 = {(chunkAt k m).2}) ∧
    (∀ j k, j < NCHUNKS → k < NCHUNKS → j ≠ k →
      Disjoint (Finset.Ico (chunkAt j m).1 (chunkAt j m).2)
        (Finset.Ico (chunkAt k m).1 (chunkAt k m).2)) ∧
    ((Finset.range NCHUNKS).biUnion
        (fun k => (workerNonces (chunkAt k m).1 (chunkAt k m).2).toFinset) =
      Finset.Icc 0 U32MAX) ∧
    (∀ k, k + 1 < NCHUNKS → (chunkAt k m).2 - (chunkAt k m).1 = CHUNK_SIZE) ∧
    ((chunkAt (NCHUNKS - 1) m).2 - (chunkAt (NCHUNKS - 1) m).1 = 17295) := by
  have hck : ∀ k, k < NCHUNKS → chunkAt k m = (genOffset k, genOffset (k + 1)) :=
    fun k hk => (chunkAt_gen m h0 k hk).1
  refine ⟨fun k hk => chunkAt_gen m h0 k hk, ?_, ?_, ?_, ?_, ?_, ?_⟩
  · intro k hk
    rw [hck k (by omega), hck (k + 1) hk]
  · intro k hk
    rw [hck k (by omega), hck (k + 1) hk]
    show Finset.Icc (genOffset k) (genOffset (k + 1)) ∩
      Finset.Icc (genOffset (k + 1)) (genOffset (k + 2)) = {genOffset (k + 1)}
    have ha : genOffset k ≤ genOffset (k + 1) := genOffset_mono (by omega)
    have hb : genOffset (k + 1) ≤ genOffset (k + 2) := genOffset_mono (by omega)
    ext x
    simp only [Finset.mem_inter, Finset.mem_Icc, Finset.mem_singleton]
    omega
  · intro j k hj hk hjk
    rw [hck j hj, hck k hk]
    rcases Nat.lt_or_ge j k with hlt | hge
    · exact chunkIco_disjoint j k hlt
    · have hlt : k < j := by omega
      exact (chunkIco_disjoint k j hlt).symm
  · have hcong : ∀ k ∈ Finset.range NCHUNKS,
        (workerNonces (chunkAt k m).1 (chunkAt k m).2).toFinset =
          Finset.Icc (genOffset k) (genOffset (k + 1)) := by
      intro k hk
      rw [Finset.mem_range] at hk
      rw [hck k hk]
      exact workerNonces_toFinset _ _ (genOffset_mono (by omega))
    rw [Finset.biUnion_congr rfl hcong]
    exact genOffset_union
  · intro k hk
    rw [hck k (by omega)]
    show genOffset (k + 1) - genOffset k = CHUNK_SIZE
    unfold genOffset NCHUNKS CHUNK_SIZE U32MAX at *
    omega
  · rw [hck (NCHUNKS - 1) (by unfold NCHUNKS; omega)]
    show genOffset (NCHUNKS - 1 + 1) - genOffset (NCHUNKS - 1) = 17295
    unfold genOffset NCHUNKS CHUNK_SIZE U32MAX
    omega

/-- Claim C1, witness: the amended theorem applied to the freshly
constructed manager. -/
theorem C1_amended_witness :
    BlockManager.new.blocks.1.2 = 0 ∧
    (chunkAt 0 BlockManager.new).2 - (chunkAt 0 BlockManager.new).1 = CHUNK_SIZE :=
  ⟨rfl, (C1_amended BlockManager.new rfl).2.2.2.2.2.1 0 (by decide)⟩

/-! ## Claim C2 — scan order of the digest comparison -/

/-- Claim C2, counterexample: the claim says match_hash compares digest and
threshold as big-endian unsigned integers scanning from the most-significant
byte; the classifier following that description rejects the digest
0x01 followed by 31 zero bytes for every class (its first byte exceeds every
threshold's first byte), yet match_hash returns DIAMOND for it, because the
code scans from index 31 downwards. -/
theorem C2_counterexample :
    specClassifyBE ResourceMatcher.new.resources d2cex = none ∧
    ResourceMatcher.new.match_hash d2cex = some diamondR := by
  decide

/-- Claim C2, amended: match_hash scans bytes from the highest index
downwards, so it compares digest and threshold as LITTLE-endian unsigned
integers: at the first differing byte (from the top index) a lower digest
byte satisfies the threshold, a higher one moves to the next candidate, and
all-equal satisfies; hence match_hash returns the first resource in rarity
order whose target is ≥ the digest in little-endian value. -/
theorem C2_amended (hash : List Nat) (hlen : hash.length = 32) (hh : ∀ b ∈ hash, b < 256) :
    ResourceMatcher.new.match_hash hash =
      ResourceMatcher.new.resources.find? fun r => decide (leVal hash ≤ leVal r.target) :=
  matchList_eq_le hash hlen hh ResourceMatcher.new.resources (by decide)

/-- Claim C2, witness: the amended theorem applied to the digest d2cex. -/
theorem C2_amended_witness :
    d2cex.length = 32 ∧
    ResourceMatcher.new.match_hash d2cex =
      ResourceMatcher.new.resources.find? fun r => decide (leVal d2cex ≤ leVal r.target) :=
  ⟨by decide, C2_amended d2cex (by decide) (by decide)⟩

/-! ## Claim C3 — rotation -/

/-- Claim C3: in any state satisfying the reachable-state invariant whose
active offset has reached u32::MAX, the very next get_block call returns a
chunk drawn from the promoted spare (a different block), starting at offset
0; the exhausted-block counter has increased by exactly 1; a fresh spare at
offset 0 exists immediately after the rotation; and the internal retry makes
the same call return a valid chunk [0, CHUNK_SIZE]. -/
theorem C3_rotation (m : BlockManager) (hinv : BMInv m) (hmax : m.blocks.1.2 = U32MAX) :
    (get_block m).1 = m.blocks.2.1 ∧
    (get_block m).1 ≠ m.blocks.1.1 ∧
    (get_block m).2.1 = 0 ∧
    (get_block m).2.2.1 = CHUNK_SIZE ∧
    (get_block m).2.2.1 ≤ U32MAX ∧
    (get_block m).2.2.2.mined = m.mined + 1 ∧
    (get_block m).2.2.2.blocks.1 = (m.blocks.2.1, CHUNK_SIZE) ∧
    (get_block m).2.2.2.blocks.2 = (Block.new m.nextId, 0) := by
  obtain ⟨h0, h1, h2, h3, h4⟩ := hinv
  have hro : (rotate m).blocks.1.2 = 0 := h0
  rw [get_block, if_pos hmax, if_neg (by rw [hro]; decide)]
  unfold serve
  rw [hro]
  have hmin : (0 : Nat) + min CHUNK_SIZE (U32MAX - 0) = CHUNK_SIZE := by
    unfold CHUNK_SIZE U32MAX
    omega
  refine ⟨rfl, Ne.symm h4, rfl, ?_, ?_, rfl, ?_, rfl⟩
  · show 0 + min CHUNK_SIZE (U32MAX - 0) = CHUNK_SIZE
    exact hmin
  · show 0 + min CHUNK_SIZE (U32MAX - 0) ≤ U32MAX
    unfold CHUNK_SIZE U32MAX
    omega
  · show ((rotate m).blocks.1.1, 0 + min CHUNK_SIZE (U32MAX - 0)) = (m.blocks.2.1, CHUNK_SIZE)
    rw [hmin]
    rfl

/-- Claim C3, witness: the rotation theorem applied to a concrete state with
the active offset at u32::MAX. -/
theorem C3_rotation_witness :
    (get_block mC3).1 = mC3.blocks.2.1 ∧
    (get_block mC3).1 ≠ mC3.blocks.1.1 ∧
    (get_block mC3).2.1 = 0 ∧
    (get_block mC3).2.2.1 = CHUNK_SIZE ∧
    (get_block mC3).2.2.1 ≤ U32MAX ∧
    (get_block mC3).2.2.2.mined = mC3.mined + 1 ∧
    (get_block mC3).2.2.2.blocks.1 = (mC3.blocks.2.1, CHUNK_SIZE) ∧
    (get_block mC3).2.2.2.blocks.2 = (Block.new mC3.nextId, 0) :=
  C3_rotation mC3 (by unfold BMInv mC3 Block.new; decide) (by decide)

/-! ## Claim C4 — chunk allocation below the maximum -/

/-- Claim C4: when the active offset has not reached u32::MAX, get_block
returns the active block with start equal to the stored offset and end equal
to start plus min(CHUNK_SIZE, u32::MAX - offset); the stored offset advances
to end; end never exceeds u32::MAX (so the u32 addition cannot overflow);
the spare and the counter are untouched; and at offset u32::MAX - 17295 the
chunk has length exactly 17295, the offset lands on u32::MAX, and the
subsequent call (with the spare at offset 0) increments the exhausted
counter by exactly 1. -/
theorem C4_chunk (m : BlockManager) (h : m.blocks.1.2 < U32MAX) :
    (get_block m).1 = m.blocks.1.1 ∧
    (get_block m).2.1 = m.blocks.1.2 ∧
    (get_block m).2.2.1 = m.blocks.1.2 + min CHUNK_SIZE (U32MAX - m.blocks.1.2) ∧
    (get_block m).2.2.2.blocks.1.2 = (get_block m).2.2.1 ∧
    (get_block m).2.2.1 ≤ U32MAX ∧
    (get_block m).2.2.2.blocks.2 = m.blocks.2 ∧
    (get_block m).2.2.2.mined = m.mined ∧
    (m.blocks.1.2 = U32MAX - 17295 →
      (get_block m).2.2.1 - (get_block m).2.1 = 17295 ∧
      (get_block m).2.2.2.blocks.1.2 = U32MAX) ∧
    (m.blocks.1.2 = U32MAX - 17295 → m.blocks.2.2 = 0 →
      (get_block (get_block m).2.2.2).2.2.2.mined = m.mined + 1) := by
  rw [get_block_of_lt m h]
  unfold serve
  refine ⟨rfl, rfl, rfl, rfl, ?_, rfl, rfl, ?_, ?_⟩
  · show m.blocks.1.2 + min CHUNK_SIZE (U32MAX - m.blocks.1.2) ≤ U32MAX
    unfold CHUNK_SIZE U32MAX at *
    omega
  · intro h17
    constructor
    · show m.blocks.1.2 + min CHUNK_SIZE (U32MAX - m.blocks.1.2) - m.blocks.1.2 = 17295
      rw [h17]
      unfold CHUNK_SIZE U32MAX
      omega
    · show m.blocks.1.2 + min CHUNK_SIZE (U32MAX - m.blocks.1.2) = U32MAX
      rw [h17]
      unfold CHUNK_SIZE U32MAX
      omega
  · intro h17 hsp
    have hoff : m.blocks.1.2 + min CHUNK_SIZE (U32MAX - m.blocks.1.2) = U32MAX := by
      rw [h17]
      unfold CHUNK_SIZE U32MAX
      omega
    show (get_block { m with blocks :=
      ((m.blocks.1.1, m.blocks.1.2 + min CHUNK_SIZE (U32MAX - m.blocks.1.2)),
        m.blocks.2) }).2.2.2.mined = m.mined + 1
    rw [get_block, if_pos hoff, if_neg (by show ¬ m.blocks.2.2 = U32MAX; rw [hsp]; decide)]
    rfl

/-- Claim C4, witness: the allocation theorem applied to a concrete state at
offset u32::MAX - 17295 = 4294950000, with the inner boundary-scenario
hypotheses also discharged. -/
theorem C4_chunk_witness :
    (get_block mC4).1 = mC4.blocks.1.1 ∧
    (get_block mC4).2.1 = mC4.blocks.1.2 ∧
    (get_block mC4).2.2.1 = mC4.blocks.1.2 + min CHUNK_SIZE (U32MAX - mC4.blocks.1.2) ∧
    (get_block mC4).2.2.2.blocks.1.2 = (get_block mC4).2.2.1 ∧
    (get_block mC4).2.2.1 ≤ U32MAX ∧
    (get_block mC4).2.2.2.blocks.2 = mC4.blocks.2 ∧
    (get_block mC4).2.2.2.mined = mC4.mined ∧
    ((get_block mC4).2.2.1 - (get_block mC4).2.1 = 17295 ∧
      (get_block mC4).2.2.2.blocks.1.2 = U32MAX) ∧
    (get_block (get_block mC4).2.2.2).2.2.2.mined = mC4.mined + 1 := by
  have h := C4_chunk mC4 (by decide)
  exact ⟨h.1, h.2.1, h.2.2.1, h.2.2.2.1, h.2.2.2.2.1, h.2.2.2.2.2.1, h.2.2.2.2.2.2.1,
    h.2.2.2.2.2.2.2.1 (by decide), h.2.2.2.2.2.2.2.2 (by decide) (by decide)⟩

/-! ## Claim C5 — nesting of the thresholds -/

/-- Claim C5: under the matcher's comparison order the four thresholds are
strictly nested, DIAMOND tightest through COAL loosest; for every 32-byte
digest, satisfying a class's threshold implies satisfying every less-rare
class's threshold; and match_hash always returns the first (rarest)
satisfied class of its rarest-first resource list. -/
theorem C5_nesting :
    (leVal diamondR.target < leVal goldR.target ∧ leVal goldR.target < leVal ironR.target ∧
      leVal ironR.target < leVal coalR.target) ∧
    (∀ hash : List Nat, hash.length = 32 → (∀ b ∈ hash, b < 256) →
      ((matchOne hash diamondR.target = true → matchOne hash goldR.target = true) ∧
       (matchOne hash diamondR.target = true → matchOne hash ironR.target = true) ∧
       (matchOne hash diamondR.target = true → matchOne hash coalR.target = true) ∧
       (matchOne hash goldR.target = true → matchOne hash ironR.target = true) ∧
       (matchOne hash goldR.target = true → matchOne hash coalR.target = true) ∧
       (matchOne hash ironR.target = true → matchOne hash coalR.target = true))) ∧
    (∀ hash : List Nat, ResourceMatcher.new.match_hash hash =
      ResourceMatcher.new.resources.find? fun r => matchOne hash r.target) := by
  refine ⟨by decide, ?_, fun hash => matchList_eq_findSat hash _⟩
  intro hash hlen hh
  refine ⟨?_, ?_, ?_, ?_, ?_, ?_⟩ <;>
    exact matchOne_mono hash _ _ (by rw [hlen]; decide) (by rw [hlen]; decide) hh
      (by decide) (by decide) (by decide)

/-- Claim C5, witness: the nesting theorem applied to the all-zero digest,
which satisfies the DIAMOND threshold and hence the GOLD one. -/
theorem C5_nesting_witness :
    matchOne hashZero diamondR.target = true ∧ matchOne hashZero goldR.target = true :=
  ⟨by decide, (C5_nesting.2.1 hashZero (by decide) (by decide)).1 (by decide)⟩

/-! ## Claim C6 — a digest equal to a threshold matches -/

/-- Claim C6: a digest byte-for-byte equal to a class's threshold satisfies
that threshold (the all-equal scan returns a match), and match_hash on it
returns exactly that class — a class at least as rare as the one whose
threshold it equals, never none. -/
theorem C6_boundary : ∀ r ∈ ResourceMatcher.new.resources,
    matchOne r.target r.target = true ∧ ResourceMatcher.new.match_hash r.target = some r := by
  decide

/-- Claim C6, witness: the boundary theorem applied to the DIAMOND
resource. -/
theorem C6_boundary_witness :
    diamondR ∈ ResourceMatcher.new.resources ∧
    (matchOne diamondR.target diamondR.target = true ∧
     ResourceMatcher.new.match_hash diamondR.target = some diamondR) :=
  ⟨by decide, C6_boundary diamondR (by decide)⟩

/-! ## Claim C7 — digests above the loosest threshold -/

/-- Claim C7, counterexample: the digest with byte 0x01 at index 2 has
big-endian value 256^29, far above the COAL threshold under either reading
(big-endian value of the stored target, or the matcher's little-endian
value), yet match_hash classifies it as DIAMOND instead of returning none —
the classifier does not use big-endian order. -/
theorem C7_counterexample :
    beVal coalR.target < beVal d7cex ∧ leVal coalR.target < beVal d7cex ∧
    ResourceMatcher.new.match_hash d7cex = some diamondR := by
  decide

/-- Claim C7, amended: for every 32-byte digest whose value in the matcher's
comparison order — as a LITTLE-endian unsigned integer — exceeds the loosest
(COAL) threshold, match_hash returns none. -/
theorem C7_amended (hash : List Nat) (hlen : hash.length = 32) (hh : ∀ b ∈ hash, b < 256)
    (hgt : leVal coalR.target < leVal hash) :
    ResourceMatcher.new.match_hash hash = none := by
  show matchList ResourceMatcher.new.resources hash = none
  rw [matchList_eq_le hash hlen hh _ (by decide)]
  rw [List.find?_eq_none]
  intro r hr
  simp only [ResourceMatcher.new, List.mem_cons, List.not_mem_nil, or_false] at hr
  have hble : leVal r.target ≤ leVal coalR.target := by
    rcases hr with rfl | rfl | rfl | rfl <;> decide
  simp only [decide_eq_true_eq]
  intro hc
  exact absurd (le_trans hc hble) (Nat.not_le.mpr hgt)

/-- Claim C7, witness: the amended theorem applied to the digest whose top
byte (index 31) is 1, of little-endian value 256^31. -/
theorem C7_amended_witness :
    leVal coalR.target < leVal d7wit ∧ ResourceMatcher.new.match_hash d7wit = none :=
  ⟨by decide, C7_amended d7wit (by decide) (by decide) (by decide)⟩

/-! ## Claim C8 — the threads option -/

/-- Claim C8, counterexample: the claim says a supplied value that is not a
positive integer makes startup fail, but "0" is not a positive integer and
parses successfully: the program starts a pool of zero worker threads
instead of failing. -/
theorem C8_counterexample :
    isPositiveIntChars ['0'] = false ∧ threadsOf (some ['0']) 8 = some 0 := by
  decide

/-- Claim C8, amended: a supplied threads value fails startup (the unwrap
panics before any mining) exactly when it does not parse as an optionally
'+'-signed string of ASCII digits with value below 2^64; an absent option
defaults to the physical core count; and the non-positive value "0" is
accepted, yielding a zero-sized worker pool. -/
theorem C8_amended (s : List Char) (p : Nat) :
    (threadsOf (some s) p = none ↔ ¬ validUsizeChars s) ∧
    threadsOf none p = some p ∧
    threadsOf (some ['0']) p = some 0 :=
  ⟨parseUsize_none_iff s, rfl, parseUsize_zero⟩

/-- Claim C8, witness: the amended theorem applied to the non-numeric value
"x" and physical core count 4. -/
theorem C8_amended_witness :
    (threadsOf (some ['x']) 4 = none ↔ ¬ validUsizeChars ['x']) ∧
    threadsOf none 4 = some 4 ∧
    threadsOf (some ['0']) 4 = some 0 :=
  C8_amended ['x'] 4

/-! ## Claim C9 — persistence failure halts the aggregator -/

/-- Claim C9: if the i-th persistence attempt is the first to fail, the
aggregator run halts with a surfaced error at index i instead of continuing:
the persisted records are exactly the i discoveries before the failure, no
later discovery is counted or dropped (the counts cover exactly the
discoveries up to and including the failing one, whose count the source
increments before the failed write), and the remaining input is never
processed. -/
theorem C9_halt (ok : Nat → Bool) (ds : List Discovery) (i : Nat)
    (h1 : i < ds.length) (h2 : ∀ j, j < i → ok j = true) (h3 : ok i = false) :
    aggRun ok 0 aggInit ds = Except.error (i,
      { counts := countsAfter (ds.take (i + 1)) aggInit.counts, records := ds.take i }) ∧
    (∀ k, countsAfter (ds.take (i + 1)) aggInit.counts k = countsOf (ds.take (i + 1)) k) := by
  have h := aggRun_error_at ok i ds 0 aggInit h1
    (fun j hj => by rw [Nat.zero_add]; exact h2 j hj)
    (by rw [Nat.zero_add]; exact h3)
  rw [Nat.zero_add] at h
  constructor
  · rw [h]
    have hrec : aggInit.records ++ ds.take i = ds.take i := by
      show [] ++ ds.take i = ds.take i
      rw [List.nil_append]
    rw [hrec]
  · intro k
    rw [countsAfter_eq]
    show 0 + countsOf (ds.take (i + 1)) k = _
    omega

/-- Claim C9, witness: the halting theorem applied to the two-discovery list
ds9 with a write failure at index 1. -/
theorem C9_halt_witness :
    aggRun ok9 0 aggInit ds9 = Except.error (1,
      { counts := countsAfter (ds9.take 2) aggInit.counts, records := ds9.take 1 }) ∧
    countsAfter (ds9.take 2) aggInit.counts ResourceKind.COAL =
      countsOf (ds9.take 2) ResourceKind.COAL := by
  have h := C9_halt ok9 ds9 1 (by decide) (by decide) (by decide)
  exact ⟨h.1, h.2 ResourceKind.COAL⟩

/-! ## Claim C10 — the spare offset invariant and termination -/

/-- Claim C10: in every reachable manager state the spare entry's nonce
offset is 0 — only the active offset is ever advanced — and therefore the
internal rotation retry of get_block recurses at most once: recursion fuel 2
already suffices for the literal source recursion get_blockF to return, on
every reachable state, the same result as the total get_block, so every call
terminates. -/
theorem C10_invariant (m : BlockManager) (h : ReachableBM m) :
    m.blocks.2.2 = 0 ∧ get_blockF 2 m = some (get_block m) := by
  have hi := BMInv_reachable m h
  exact ⟨hi.1, get_blockF_two m hi.1⟩

/-- Claim C10, witness: the invariant theorem applied to the freshly
constructed manager, reachable by the empty step sequence. -/
theorem C10_invariant_witness :
    BlockManager.new.blocks.2.2 = 0 ∧
    get_blockF 2 BlockManager.new = some (get_block BlockManager.new) :=
  C10_invariant BlockManager.new Relation.ReflTransGen.refl
